import Mathlib

/- Verification of the ODE-lab integration core: the Euler, Improved Euler and
Milne steppers and the adaptive step-halving driver from `methods.py` and
`utils.py`, the Runge error estimator, and the UI-level input validation from
`UI.py`.  Python floats are idealized as exact rationals (`ℚ`); `while` loops
are embedded as recursions over an explicit iteration budget ("fuel"); raised
exceptions are explicit outcome values. -/

namespace OdeLab

/-- Python 3 `round` on a real value: nearest integer, ties to even
(banker's rounding), as used by `int(round((xn - x0) / h))` in `solve`. -/
def pyRound (q : ℚ) : ℤ :=
  if q - ⌊q⌋ < 1 / 2 then ⌊q⌋
  else if 1 / 2 < q - ⌊q⌋ then ⌊q⌋ + 1
  else if 2 ∣ ⌊q⌋ then ⌊q⌋ else ⌊q⌋ + 1

/-- `MAX_POINTS = 150000`, the point-count ceiling in `utils.solve`. -/
def MAX_POINTS : ℤ := 150000

/-- The literal `1e-14` guarding the Milne loop boundary in `milne_method`. -/
def tol14 : ℚ := 1 / 10 ^ 14

/-- Right-hand side of `ode1` in `ode.py`: `lambda x, y: y - x*x + 1`. -/
def ode1_f (x y : ℚ) : ℚ := y - x * x + 1

/-- Iteration budget for the stepper loops.  All three stepper loops advance
`x` by `h > 0` each iteration and stop once `x` has passed `xn`, so
`⌈(xn - x0)/h⌉ + 1` iterations are provably never exhausted when `h > 0`
(the budget is an upper bound on the loop trip count, not part of the
source semantics). -/
def stepperFuel (x0 xn h : ℚ) : ℕ := (⌈(xn - x0) / h⌉).toNat + 1

/-- Loop of `euler_method` in `methods.py`:
`while x < xn: y = y + h*f(x, y); x = x + h; append`. -/
def eulerLoop (f : ℚ → ℚ → ℚ) (xn h : ℚ) :
    ℚ → ℚ → List ℚ → List ℚ → ℕ → List ℚ × List ℚ
  | _, _, xs, ys, 0 => (xs, ys)
  | x, y, xs, ys, fuel + 1 =>
    if x < xn then
      let y' := y + h * f x y
      let x' := x + h
      eulerLoop f xn h x' y' (xs ++ [x']) (ys ++ [y']) fuel
    else (xs, ys)

/-- `euler_method(ode, x0, y0, xn, h)` from `methods.py`. -/
def euler_method (f : ℚ → ℚ → ℚ) (x0 y0 xn h : ℚ) : List ℚ × List ℚ :=
  eulerLoop f xn h x0 y0 [x0] [y0] (stepperFuel x0 xn h)

/-- One Improved Euler (Heun) update, the loop body shared verbatim by
`improved_euler_method` and the bootstrap phase of `milne_method`:
`k1 = f(x, y); y_pred = y + h*k1; k2 = f(x + h, y_pred);
y = y + (h/2)*(k1 + k2)`. -/
def heunStep (f : ℚ → ℚ → ℚ) (h x y : ℚ) : ℚ :=
  let k1 := f x y
  let y_pred := y + h * k1
  let k2 := f (x + h) y_pred
  y + (h / 2) * (k1 + k2)

/-- Loop of `improved_euler_method` in `methods.py`. -/
def improvedEulerLoop (f : ℚ → ℚ → ℚ) (xn h : ℚ) :
    ℚ → ℚ → List ℚ → List ℚ → ℕ → List ℚ × List ℚ
  | _, _, xs, ys, 0 => (xs, ys)
  | x, y, xs, ys, fuel + 1 =>
    if x < xn then
      let y' := heunStep f h x y
      let x' := x + h
      improvedEulerLoop f xn h x' y' (xs ++ [x']) (ys ++ [y']) fuel
    else (xs, ys)

/-- `improved_euler_method(ode, x0, y0, xn, h)` from `methods.py`. -/
def improved_euler_method (f : ℚ → ℚ → ℚ) (x0 y0 xn h : ℚ) : List ℚ × List ℚ :=
  improvedEulerLoop f xn h x0 y0 [x0] [y0] (stepperFuel x0 xn h)

/-- Bootstrap phase of `milne_method`: the `for _ in range(3)` loop of three
unconditional Improved Euler steps, yielding the four points of index 0..3. -/
def milneBoot (f : ℚ → ℚ → ℚ) (x0 y0 h : ℚ) : List ℚ × List ℚ :=
  let x1 := x0 + h
  let y1 := heunStep f h x0 y0
  let x2 := x1 + h
  let y2 := heunStep f h x1 y1
  let x3 := x2 + h
  let y3 := heunStep f h x2 y2
  ([x0, x1, x2, x3], [y0, y1, y2, y3])

/-- Predictor-corrector loop of `milne_method`:
`while xs[-1] + 1e-14 < xn`, with the derivative cache `f_vals` carried as
`fv` (Python `xs[-1]` is the last element, `List.getLastD · 0` here; all
`getD` indices are in range throughout, so the default is never used). -/
def milneLoop (f : ℚ → ℚ → ℚ) (xn h : ℚ) :
    List ℚ → List ℚ → List ℚ → ℕ → ℕ → List ℚ × List ℚ
  | xs, ys, _, _, 0 => (xs, ys)
  | xs, ys, fv, i, fuel + 1 =>
    if xs.getLastD 0 + tol14 < xn then
      let xNext := xs.getLastD 0 + h
      let yPred := ys.getD (i - 3) 0 +
        (4 * h / 3) * (2 * fv.getD i 0 - fv.getD (i - 1) 0 + 2 * fv.getD (i - 2) 0)
      let fPred := f xNext yPred
      let yCorr := ys.getD (i - 1) 0 + (h / 3) * (fv.getD (i - 1) 0 + 4 * fv.getD i 0 + fPred)
      milneLoop f xn h (xs ++ [xNext]) (ys ++ [yCorr]) (fv ++ [f xNext yCorr]) (i + 1) fuel
    else (xs, ys)

/-- `milne_method(ode, x0, y0, xn, h)` from `methods.py`: Improved Euler
bootstrap, `f_vals = [ode.f(xx, yy) for xx, yy in zip(xs, ys)]`, then the
predictor-corrector loop starting at `i = 3`. -/
def milne_method (f : ℚ → ℚ → ℚ) (x0 y0 xn h : ℚ) : List ℚ × List ℚ :=
  let b := milneBoot f x0 y0 h
  let fv := (List.zip b.1 b.2).map fun p => f p.1 p.2
  milneLoop f xn h b.1 b.2 fv 3 (stepperFuel x0 xn h)

/-- Python division: `a / b`, raising `ZeroDivisionError` (modeled as `none`)
when `b = 0`. -/
def pydiv (a b : ℚ) : Option ℚ := if b = 0 then none else some (a / b)

/-- The accumulation loop of `runge_error` in `utils.py`:
`for i in range(len(yh)): errs.append(abs(yh2[2*i] - yh[i]) / factor)`,
over an explicit list of indices.  Indexing is `getD · 0`; in `runge_error`
the guarded branch guarantees every index `2*i` is in range. -/
def rungeList (yh yh2 : List ℚ) (factor : ℚ) : List ℕ → Option (List ℚ)
  | [] => some []
  | i :: rest => do
    let e ← pydiv |yh2.getD (2 * i) 0 - yh.getD i 0| factor
    let es ← rungeList yh yh2 factor rest
    pure (e :: es)

/-- `runge_error(yh, yh2, p)` from `utils.py`.  The `float("nan")` marker of
the size-mismatch branch is modeled as `none` per entry; computed entries are
`some`; a raised `ZeroDivisionError` (possible when `2**p - 1 == 0`) is the
outer `none`. -/
def runge_error (yh yh2 : List ℚ) (p : ℕ) : Option (List (Option ℚ)) :=
  if (yh2.length : ℤ) < 2 * (yh.length : ℤ) - 1 then
    some (List.replicate yh.length none)
  else
    (rungeList yh yh2 ((2 : ℚ) ^ p - 1) (List.range yh.length)).map fun errs =>
      errs.map some

/-- Python slice `ys2[::2]`: the elements at even indices. -/
def evens : List ℚ → List ℚ
  | [] => []
  | [a] => [a]
  | a :: _ :: rest => a :: evens rest

/-- Outcome of one call to `solve`:  a normal return, a raised
`OverflowError` (point-count ceiling), a raised `ValueError` (Python `max`
applied to an empty sequence), or an exhausted iteration budget. -/
inductive SolveOutcome where
  | ok (xs ys : List ℚ) (err h : ℚ)
  | overflowError
  | valueError
  | outOfFuel
deriving DecidableEq

/-- `solve(method, ode, x0, y0, xn, h, eps, p, gui)` from `utils.py` (the
unused `gui` argument is dropped).  The second component counts how many
times the stepper `method` has been invoked.  The `while True` loop is
indexed by fuel; the loop itself is the termination question settled below. -/
def solve (method : (ℚ → ℚ → ℚ) → ℚ → ℚ → ℚ → ℚ → List ℚ × List ℚ)
    (f : ℚ → ℚ → ℚ) (x0 y0 xn eps : ℚ) (p : ℕ) : ℚ → ℕ → SolveOutcome × ℕ
  | _, 0 => (.outOfFuel, 0)
  | h, fuel + 1 =>
    let n := pyRound ((xn - x0) / h)
    if MAX_POINTS ≤ n then (.overflowError, 0)
    else
      let r1 := method f x0 y0 xn h
      let r2 := method f x0 y0 xn (h / 2)
      match List.zipWith (fun a b => |a - b| / ((2 : ℚ) ^ p - 1)) r1.2 (evens r2.2) with
      | [] => (.valueError, 2)
      | e :: rest =>
        let err := rest.foldl max e
        if err ≤ eps then (.ok r1.1 r1.2 err h, 2)
        else
          let r := solve method f x0 y0 xn eps p (h / 2) fuel
          (r.1, r.2 + 2)

/-- The scalar error bound exactly as claim C4 words it: the maximum over
ALL indices `i` of `ys1` of `|ys1[i] - ys2[2*i]| / (2^p - 1)`, with the
out-of-range reads `ys2[2*i]` made total by `getD · 0`.  Stated from the
claim, for comparison against the zip-truncated maximum the code computes. -/
def errAllIndices (ys1 ys2 : List ℚ) (p : ℕ) : ℚ :=
  ((List.range ys1.length).map fun i =>
    |ys1.getD i 0 - ys2.getD (2 * i) 0| / ((2 : ℚ) ^ p - 1)).foldl max 0

/-- Validation in `MainWindow.parse_input` (`UI.py`), after the raw text has
been converted to numbers: `if xn <= x0 or h <= 0 or epsilon <= 0: raise
ValueError`, modeled as `none`. -/
def parse_input (x0 y0 xn h eps : ℚ) : Option (ℚ × ℚ × ℚ × ℚ × ℚ) :=
  if xn ≤ x0 ∨ h ≤ 0 ∨ eps ≤ 0 then none
  else some (x0, y0, xn, h, eps)

/-- Outcome of `MainWindow.on_compute` (`UI.py`): the input-error dialog, the
overflow dialog, the "Milne needs 4 points" dialog shown on `ValueError`,
a completed computation (the three accepted results), or an exhausted
driver budget. -/
inductive ComputeOutcome where
  | inputError
  | overflowMsg
  | insufficientMsg
  | done (r1 r2 r3 : (List ℚ × List ℚ) × ℚ × ℚ)
  | fuelOut
deriving DecidableEq

/-- Control flow of `MainWindow.on_compute` (`UI.py`): parse and validate,
then run `solve` for Euler (p = 1), Improved Euler (p = 2) and Milne (p = 4)
in order inside one `try`, where a raised `OverflowError`/`ValueError`
aborts the remaining calls.  The second component counts the total number of
stepper invocations performed. -/
def on_compute (f : ℚ → ℚ → ℚ) (x0 y0 xn h eps : ℚ) (fuel : ℕ) :
    ComputeOutcome × ℕ :=
  match parse_input x0 y0 xn h eps with
  | none => (.inputError, 0)
  | some _ =>
    match solve euler_method f x0 y0 xn eps 1 h fuel with
    | (.ok xs1 ys1 e1 h1, c1) =>
      match solve improved_euler_method f x0 y0 xn eps 2 h fuel with
      | (.ok xs2 ys2 e2 h2, c2) =>
        match solve milne_method f x0 y0 xn eps 4 h fuel with
        | (.ok xs3 ys3 e3 h3, c3) =>
          (.done ((xs1, ys1), e1, h1) ((xs2, ys2), e2, h2) ((xs3, ys3), e3, h3),
            c1 + c2 + c3)
        | (.overflowError, c3) => (.overflowMsg, c1 + c2 + c3)
        | (.valueError, c3) => (.insufficientMsg, c1 + c2 + c3)
        | (.outOfFuel, c3) => (.fuelOut, c1 + c2 + c3)
      | (.overflowError, c2) => (.overflowMsg, c1 + c2)
      | (.valueError, c2) => (.insufficientMsg, c1 + c2)
      | (.outOfFuel, c2) => (.fuelOut, c1 + c2)
    | (.overflowError, c1) => (.overflowMsg, c1)
    | (.valueError, c1) => (.insufficientMsg, c1)
    | (.outOfFuel, c1) => (.fuelOut, c1)

/-! ### General helper lemmas -/

theorem ceil_as_floor (a : ℚ) : ⌈a⌉ = -⌊-a⌋ := by
  rw [Int.floor_neg, neg_neg]

theorem floor_le_pyRound (q : ℚ) : ⌊q⌋ ≤ pyRound q := by
  unfold pyRound
  split
  · exact le_refl _
  · split
    · omega
    · split
      · exact le_refl _
      · omega

theorem lastD_eq_getD (l : List ℚ) (hl : l ≠ []) :
    l.getLastD 0 = l.getD (l.length - 1) 0 := by
  induction l with
  | nil => exact absurd rfl hl
  | cons a t ih =>
    cases t with
    | nil => rfl
    | cons b u =>
      have := ih (by simp)
      simpa using this

theorem evens_ne_nil (l : List ℚ) (hl : l ≠ []) : evens l ≠ [] := by
  match l with
  | [a] => simp [evens]
  | a :: _ :: _ => simp [evens]

theorem le_foldl_max (l : List ℚ) : ∀ e : ℚ, e ≤ l.foldl max e := by
  induction l with
  | nil => intro e; exact le_refl e
  | cons b t ih =>
    intro e
    exact le_trans (le_max_left e b) (ih (max e b))

theorem foldl_max_mem (l : List ℚ) : ∀ e : ℚ, l.foldl max e ∈ e :: l := by
  induction l with
  | nil => intro e; simp
  | cons b t ih =>
    intro e
    have h := ih (max e b)
    rcases List.mem_cons.mp h with h1 | h1
    · rcases max_choice e b with h2 | h2 <;> rw [List.foldl_cons, h1, h2] <;> simp
    · simp [List.foldl_cons, List.mem_cons.mpr (Or.inr (List.mem_cons.mpr (Or.inr h1)))]

theorem foldl_max_ub (l : List ℚ) : ∀ e a : ℚ, a ∈ e :: l → a ≤ l.foldl max e := by
  induction l with
  | nil =>
    intro e a ha
    simp at ha
    exact ha.le
  | cons b t ih =>
    intro e a ha
    rw [List.foldl_cons]
    rcases List.mem_cons.mp ha with h1 | h1
    · exact h1.le.trans ((le_max_left e b).trans (le_foldl_max t (max e b)))
    · rcases List.mem_cons.mp h1 with h2 | h2
      · exact h2.le.trans ((le_max_right e b).trans (le_foldl_max t (max e b)))
      · exact ih (max e b) a (List.mem_cons.mpr (Or.inr h2))

/-! ### Loop shape lemmas -/

theorem eulerLoop_append (f : ℚ → ℚ → ℚ) (xn h : ℚ) :
    ∀ (fuel : ℕ) (x y : ℚ) (xs ys : List ℚ),
      ∃ t u, eulerLoop f xn h x y xs ys fuel = (xs ++ t, ys ++ u) := by
  intro fuel
  induction fuel with
  | zero => intro x y xs ys; exact ⟨[], [], by simp [eulerLoop]⟩
  | succ n ih =>
    intro x y xs ys
    by_cases hx : x < xn
    · obtain ⟨t, u, ht⟩ := ih (x + h) (y + h * f x y) (xs ++ [x + h]) (ys ++ [y + h * f x y])
      exact ⟨[x + h] ++ t, [y + h * f x y] ++ u, by simp [eulerLoop, if_pos hx, ht]⟩
    · exact ⟨[], [], by simp [eulerLoop, if_neg hx]⟩

theorem improvedEulerLoop_append (f : ℚ → ℚ → ℚ) (xn h : ℚ) :
    ∀ (fuel : ℕ) (x y : ℚ) (xs ys : List ℚ),
      ∃ t u, improvedEulerLoop f xn h x y xs ys fuel = (xs ++ t, ys ++ u) := by
  intro fuel
  induction fuel with
  | zero => intro x y xs ys; exact ⟨[], [], by simp [improvedEulerLoop]⟩
  | succ n ih =>
    intro x y xs ys
    by_cases hx : x < xn
    · obtain ⟨t, u, ht⟩ :=
        ih (x + h) (heunStep f h x y) (xs ++ [x + h]) (ys ++ [heunStep f h x y])
      exact ⟨[x + h] ++ t, [heunStep f h x y] ++ u,
        by simp [improvedEulerLoop, if_pos hx, ht]⟩
    · exact ⟨[], [], by simp [improvedEulerLoop, if_neg hx]⟩

theorem milneLoop_append (f : ℚ → ℚ → ℚ) (xn h : ℚ) :
    ∀ (fuel : ℕ) (xs ys fv : List ℚ) (i : ℕ),
      ∃ t u, milneLoop f xn h xs ys fv i fuel = (xs ++ t, ys ++ u) := by
  intro fuel
  induction fuel with
  | zero => intro xs ys fv i; exact ⟨[], [], by simp [milneLoop]⟩
  | succ n ih =>
    intro xs ys fv i
    by_cases hx : xs.getLastD 0 + tol14 < xn
    · have key : ∀ a b c : ℚ, ∃ t u,
          milneLoop f xn h (xs ++ [a]) (ys ++ [b]) (fv ++ [c]) (i + 1) n =
            (xs ++ t, ys ++ u) := by
        intro a b c
        obtain ⟨t, u, ht⟩ := ih (xs ++ [a]) (ys ++ [b]) (fv ++ [c]) (i + 1)
        exact ⟨[a] ++ t, [b] ++ u, by rw [ht]; simp⟩
      simp only [milneLoop]
      rw [if_pos hx]
      exact key _ _ _
    · simp only [milneLoop]
      rw [if_neg hx]
      exact ⟨[], [], by simp⟩

theorem eulerLoop_xs (f : ℚ → ℚ → ℚ) (xn h : ℚ) (hh : 0 < h) :
    ∀ (fuel : ℕ) (x y : ℚ) (xs ys : List ℚ), (⌈(xn - x) / h⌉).toNat < fuel →
      (eulerLoop f xn h x y xs ys fuel).1 =
        xs ++ (List.range (⌈(xn - x) / h⌉).toNat).map fun k : ℕ => x + ((k : ℚ) + 1) * h := by
  intro fuel
  induction fuel with
  | zero => intro x y xs ys hfuel; omega
  | succ n ih =>
    intro x y xs ys hfuel
    by_cases hx : x < xn
    · have hq : 0 < (xn - x) / h := div_pos (by linarith) hh
      have hc1 : 1 ≤ ⌈(xn - x) / h⌉ := Int.one_le_ceil_iff.mpr hq
      have hstep : ⌈(xn - (x + h)) / h⌉ = ⌈(xn - x) / h⌉ - 1 := by
        have hne : h ≠ 0 := ne_of_gt hh
        have heq : (xn - (x + h)) / h = (xn - x) / h - 1 := by
          field_simp
          ring
        rw [heq, Int.ceil_sub_one]
      rw [show eulerLoop f xn h x y xs ys (n + 1) =
            eulerLoop f xn h (x + h) (y + h * f x y) (xs ++ [x + h])
              (ys ++ [y + h * f x y]) n from by
        simp [eulerLoop, if_pos hx]]
      rw [ih (x + h) (y + h * f x y) (xs ++ [x + h]) (ys ++ [y + h * f x y])
          (by rw [hstep]; omega)]
      rw [hstep]
      obtain ⟨M, hM⟩ : ∃ M, (⌈(xn - x) / h⌉).toNat = M + 1 :=
        ⟨(⌈(xn - x) / h⌉).toNat - 1, by omega⟩
      rw [show (⌈(xn - x) / h⌉ - 1).toNat = M from by omega, hM]
      rw [List.range_succ_eq_map]
      rw [List.map_cons, List.map_map]
      rw [List.append_assoc]
      congr 1
      rw [show ((fun k : ℕ => x + ((k : ℚ) + 1) * h) ∘ Nat.succ) =
            fun k : ℕ => x + h + ((k : ℚ) + 1) * h from by
        funext k
        simp only [Function.comp]
        push_cast
        ring]
      simp
    · have hle : (xn - x) / h ≤ 0 :=
        div_nonpos_iff.mpr (Or.inr ⟨by linarith [not_lt.mp hx], hh.le⟩)
      have : ⌈(xn - x) / h⌉ ≤ 0 := Int.ceil_le.mpr (by exact_mod_cast hle)
      rw [show (⌈(xn - x) / h⌉).toNat = 0 from by omega]
      simp [eulerLoop, if_neg hx]

theorem improvedEulerLoop_xs (f : ℚ → ℚ → ℚ) (xn h : ℚ) (hh : 0 < h) :
    ∀ (fuel : ℕ) (x y : ℚ) (xs ys : List ℚ), (⌈(xn - x) / h⌉).toNat < fuel →
      (improvedEulerLoop f xn h x y xs ys fuel).1 =
        xs ++ (List.range (⌈(xn - x) / h⌉).toNat).map fun k : ℕ => x + ((k : ℚ) + 1) * h := by
  intro fuel
  induction fuel with
  | zero => intro x y xs ys hfuel; omega
  | succ n ih =>
    intro x y xs ys hfuel
    by_cases hx : x < xn
    · have hq : 0 < (xn - x) / h := div_pos (by linarith) hh
      have hc1 : 1 ≤ ⌈(xn - x) / h⌉ := Int.one_le_ceil_iff.mpr hq
      have hstep : ⌈(xn - (x + h)) / h⌉ = ⌈(xn - x) / h⌉ - 1 := by
        have hne : h ≠ 0 := ne_of_gt hh
        have heq : (xn - (x + h)) / h = (xn - x) / h - 1 := by
          field_simp
          ring
        rw [heq, Int.ceil_sub_one]
      rw [show improvedEulerLoop f xn h x y xs ys (n + 1) =
            improvedEulerLoop f xn h (x + h) (heunStep f h x y) (xs ++ [x + h])
              (ys ++ [heunStep f h x y]) n from by
        simp [improvedEulerLoop, if_pos hx]]
      rw [ih (x + h) (heunStep f h x y) (xs ++ [x + h]) (ys ++ [heunStep f h x y])
          (by rw [hstep]; omega)]
      rw [hstep]
      obtain ⟨M, hM⟩ : ∃ M, (⌈(xn - x) / h⌉).toNat = M + 1 :=
        ⟨(⌈(xn - x) / h⌉).toNat - 1, by omega⟩
      rw [show (⌈(xn - x) / h⌉ - 1).toNat = M from by omega, hM]
      rw [List.range_succ_eq_map]
      rw [List.map_cons, List.map_map]
      rw [List.append_assoc]
      congr 1
      rw [show ((fun k : ℕ => x + ((k : ℚ) + 1) * h) ∘ Nat.succ) =
            fun k : ℕ => x + h + ((k : ℚ) + 1) * h from by
        funext k
        simp only [Function.comp]
        push_cast
        ring]
      simp
    · have hle : (xn - x) / h ≤ 0 :=
        div_nonpos_iff.mpr (Or.inr ⟨by linarith [not_lt.mp hx], hh.le⟩)
      have : ⌈(xn - x) / h⌉ ≤ 0 := Int.ceil_le.mpr (by exact_mod_cast hle)
      rw [show (⌈(xn - x) / h⌉).toNat = 0 from by omega]
      simp [improvedEulerLoop, if_neg hx]

theorem getD_snoc_len (l : List ℚ) (a : ℚ) : (l ++ [a]).getD l.length 0 = a := by
  rw [List.getD_append_right _ _ _ _ (le_refl _)]
  simp

/-- Invariant of the Milne predictor-corrector loop: relative to a well-formed
starting state, the loop only appends; each appended index `k` satisfies the
grid step, the loop guard, and the predictor-corrector recurrence expressed in
the cached derivatives `f(x_j, y_j)`; and the final point fails the guard. -/
theorem milneLoop_go (f : ℚ → ℚ → ℚ) (xn h : ℚ) (hh : 0 < h) :
    ∀ (fuel : ℕ) (xs ys fv : List ℚ) (i : ℕ),
      xs ≠ [] →
      ys.length = xs.length →
      fv.length = xs.length →
      i + 1 = xs.length →
      3 ≤ i →
      (∀ j, j < xs.length → fv.getD j 0 = f (xs.getD j 0) (ys.getD j 0)) →
      (⌈(xn - xs.getLastD 0) / h⌉).toNat < fuel →
      ∀ Xs Ys, milneLoop f xn h xs ys fv i fuel = (Xs, Ys) →
        (∃ t, Xs = xs ++ t) ∧ (∃ u, Ys = ys ++ u) ∧ Ys.length = Xs.length ∧
        (∀ k, xs.length ≤ k → k < Xs.length →
          Xs.getD k 0 = Xs.getD (k - 1) 0 + h ∧
          Xs.getD (k - 1) 0 + tol14 < xn ∧
          Ys.getD k 0 = Ys.getD (k - 2) 0 + (h / 3) *
            (f (Xs.getD (k - 2) 0) (Ys.getD (k - 2) 0) +
             4 * f (Xs.getD (k - 1) 0) (Ys.getD (k - 1) 0) +
             f (Xs.getD (k - 1) 0 + h)
               (Ys.getD (k - 4) 0 + (4 * h / 3) *
                 (2 * f (Xs.getD (k - 1) 0) (Ys.getD (k - 1) 0) -
                  f (Xs.getD (k - 2) 0) (Ys.getD (k - 2) 0) +
                  2 * f (Xs.getD (k - 3) 0) (Ys.getD (k - 3) 0))))) ∧
        ¬ (Xs.getLastD 0 + tol14 < xn) := by
  have htol : (0 : ℚ) < tol14 := by norm_num [tol14]
  intro fuel
  induction fuel with
  | zero => intro xs ys fv i _ _ _ _ _ _ hfuel; omega
  | succ n ih =>
    intro xs ys fv i hne hyl hfl hi hi3 hinv hfuel Xs Ys hrun
    by_cases hx : xs.getLastD 0 + tol14 < xn
    · simp only [milneLoop] at hrun
      rw [if_pos hx] at hrun
      set A := xs.getLastD 0 + h with hA
      set yPred := ys.getD (i - 3) 0 +
        4 * h / 3 * (2 * fv.getD i 0 - fv.getD (i - 1) 0 + 2 * fv.getD (i - 2) 0)
        with hyPred
      set Y := ys.getD (i - 1) 0 +
        h / 3 * (fv.getD (i - 1) 0 + 4 * fv.getD i 0 + f A yPred) with hY
      have hlastA : (xs ++ [A]).getLastD 0 = A := by simp
      have hone : 1 ≤ ⌈(xn - xs.getLastD 0) / h⌉ :=
        Int.one_le_ceil_iff.mpr (div_pos (by linarith) hh)
      have hdec : ⌈(xn - A) / h⌉ = ⌈(xn - xs.getLastD 0) / h⌉ - 1 := by
        rw [hA]
        have hne0 : h ≠ 0 := ne_of_gt hh
        have heq : (xn - (xs.getLastD 0 + h)) / h = (xn - xs.getLastD 0) / h - 1 := by
          field_simp
          ring
        rw [heq, Int.ceil_sub_one]
      have hinv' : ∀ j, j < (xs ++ [A]).length →
          (fv ++ [f A Y]).getD j 0 =
            f ((xs ++ [A]).getD j 0) ((ys ++ [Y]).getD j 0) := by
        intro j hj
        simp only [List.length_append, List.length_singleton] at hj
        rcases Nat.lt_or_ge j xs.length with hlt | hge
        · rw [List.getD_append _ _ _ _ (by rw [hfl]; exact hlt),
            List.getD_append _ _ _ _ hlt,
            List.getD_append _ _ _ _ (by rw [hyl]; exact hlt)]
          exact hinv j hlt
        · have hjeq : j = xs.length := by omega
          subst hjeq
          rw [show (fv ++ [f A Y]).getD xs.length 0 = f A Y from by
              rw [← hfl]; exact getD_snoc_len fv _,
            show (ys ++ [Y]).getD xs.length 0 = Y from by
              rw [← hyl]; exact getD_snoc_len ys _,
            getD_snoc_len xs A]
      obtain ⟨⟨t, hXs⟩, ⟨u, hYs⟩, hlen, hprops, hguard⟩ :=
        ih (xs ++ [A]) (ys ++ [Y]) (fv ++ [f A Y]) (i + 1)
          (by simp)
          (by simp [hyl])
          (by simp [hfl])
          (by simp [← hi])
          (by omega)
          hinv'
          (by rw [hlastA]; omega)
          Xs Ys hrun
      have hXi : ∀ j, j ≤ xs.length → Xs.getD j 0 = (xs ++ [A]).getD j 0 := by
        intro j hj
        rw [hXs]
        exact List.getD_append _ _ _ _ (by simp; omega)
      have hYi : ∀ j, j ≤ xs.length → Ys.getD j 0 = (ys ++ [Y]).getD j 0 := by
        intro j hj
        rw [hYs]
        exact List.getD_append _ _ _ _ (by simp; omega)
      have hXlt : ∀ j, j < xs.length → Xs.getD j 0 = xs.getD j 0 := by
        intro j hj
        rw [hXi j hj.le]
        exact List.getD_append _ _ _ _ hj
      have hYlt : ∀ j, j < xs.length → Ys.getD j 0 = ys.getD j 0 := by
        intro j hj
        rw [hYi j hj.le]
        exact List.getD_append _ _ _ _ (by omega)
      have hXL : Xs.getD xs.length 0 = A := by
        rw [hXi _ (le_refl _)]
        exact getD_snoc_len xs A
      have hYL : Ys.getD xs.length 0 = Y := by
        rw [hYi _ (le_refl _), ← hyl]
        exact getD_snoc_len ys Y
      have hlast : xs.getLastD 0 = xs.getD i 0 := by
        rw [lastD_eq_getD xs hne, ← hi]
        simp
      refine ⟨⟨[A] ++ t, by rw [hXs]; simp⟩, ⟨[Y] ++ u, by rw [hYs]; simp⟩,
        hlen, ?_, hguard⟩
      intro k hk1 hk2
      rcases Nat.lt_or_ge k (xs.length + 1) with hklt | hkge
      · have hkk : k = xs.length := by omega
        subst hkk
        have hL1 : xs.length - 1 = i := by omega
        have hL2 : xs.length - 2 = i - 1 := by omega
        have hL3 : xs.length - 3 = i - 2 := by omega
        have hL4 : xs.length - 4 = i - 3 := by omega
        have hii : i < xs.length := by omega
        have hi1 : i - 1 < xs.length := by omega
        have hi2 : i - 2 < xs.length := by omega
        have hi3' : i - 3 < xs.length := by omega
        refine ⟨?_, ?_, ?_⟩
        · rw [hXL, hL1, hXlt i hii, hA, hlast]
        · rw [hL1, hXlt i hii, ← hlast]
          exact hx
        · rw [hYL, hL1, hL2, hL3, hL4]
          rw [hXlt i hii, hYlt i hii, hXlt (i - 1) hi1, hYlt (i - 1) hi1,
            hXlt (i - 2) hi2, hYlt (i - 2) hi2, hYlt (i - 3) hi3']
          rw [← hinv i hii, ← hinv (i - 1) hi1, ← hinv (i - 2) hi2]
          rw [show xs.getD i 0 + h = A from by rw [← hlast]]
      · have hk' : (xs ++ [A]).length ≤ k := by simp; omega
        exact hprops k hk' hk2
    · simp only [milneLoop] at hrun
      rw [if_neg hx] at hrun
      rw [Prod.mk.injEq] at hrun
      obtain ⟨rfl, rfl⟩ := hrun
      exact ⟨⟨[], by simp⟩, ⟨[], by simp⟩, hyl, by omega, hx⟩

/-! ### One-iteration behaviour of the adaptive driver -/

theorem evens_cons (b : ℚ) (l : List ℚ) : evens (b :: l) = b :: evens l.tail := by
  cases l <;> simp [evens]

/-- The ceiling check fires: `solve` raises `OverflowError` before invoking
the stepper. -/
theorem solve_overflow (method : (ℚ → ℚ → ℚ) → ℚ → ℚ → ℚ → ℚ → List ℚ × List ℚ)
    (f : ℚ → ℚ → ℚ) (x0 y0 xn eps : ℚ) (p : ℕ) (h : ℚ) (fuel : ℕ)
    (hc : MAX_POINTS ≤ pyRound ((xn - x0) / h)) :
    solve method f x0 y0 xn eps p h (fuel + 1) = (.overflowError, 0) := by
  simp only [solve]
  rw [if_pos hc]

/-- One non-overflowing iteration of `solve` with a nonempty error list:
either accept at the current `h` or recurse at `h / 2`. -/
theorem solve_step (method : (ℚ → ℚ → ℚ) → ℚ → ℚ → ℚ → ℚ → List ℚ × List ℚ)
    (f : ℚ → ℚ → ℚ) (x0 y0 xn eps : ℚ) (p : ℕ) (h : ℚ) (fuel : ℕ)
    (hc : ¬ MAX_POINTS ≤ pyRound ((xn - x0) / h))
    (e : ℚ) (rest : List ℚ)
    (herrs : List.zipWith (fun a b => |a - b| / ((2 : ℚ) ^ p - 1))
      (method f x0 y0 xn h).2 (evens (method f x0 y0 xn (h / 2)).2) = e :: rest) :
    solve method f x0 y0 xn eps p h (fuel + 1) =
      if rest.foldl max e ≤ eps then
        (.ok (method f x0 y0 xn h).1 (method f x0 y0 xn h).2 (rest.foldl max e) h, 2)
      else ((solve method f x0 y0 xn eps p (h / 2) fuel).1,
            (solve method f x0 y0 xn eps p (h / 2) fuel).2 + 2) := by
  simp only [solve]
  rw [if_neg hc, herrs]

/-- Auxiliary induction for termination of `solve`: once enough halvings have
happened that the ceiling must fire, the loop ends with a return or an
`OverflowError`. -/
theorem solve_term_aux (method : (ℚ → ℚ → ℚ) → ℚ → ℚ → ℚ → ℚ → List ℚ × List ℚ)
    (f : ℚ → ℚ → ℚ) (x0 y0 xn eps : ℚ) (p : ℕ)
    (hme : ∀ (g : ℚ → ℚ → ℚ) (a b c d : ℚ), (method g a b c d).2 ≠ []) :
    ∀ (m : ℕ) (h : ℚ), 0 < h →
      MAX_POINTS ≤ pyRound ((xn - x0) * 2 ^ m / h) →
      (∃ xs ys err h', (solve method f x0 y0 xn eps p h (m + 1)).1 = .ok xs ys err h') ∨
        (solve method f x0 y0 xn eps p h (m + 1)).1 = .overflowError := by
  intro m
  induction m with
  | zero =>
    intro h hh hceil
    right
    rw [pow_zero, mul_one] at hceil
    rw [solve_overflow method f x0 y0 xn eps p h 0 hceil]
  | succ m ih =>
    intro h hh hceil
    by_cases hc : MAX_POINTS ≤ pyRound ((xn - x0) / h)
    · right
      rw [solve_overflow method f x0 y0 xn eps p h (m + 1) hc]
    · obtain ⟨a, l1, h1⟩ := List.exists_cons_of_ne_nil (hme f x0 y0 xn h)
      obtain ⟨b, l2, h2⟩ := List.exists_cons_of_ne_nil (hme f x0 y0 xn (h / 2))
      have herrs : List.zipWith (fun a b => |a - b| / ((2 : ℚ) ^ p - 1))
          (method f x0 y0 xn h).2 (evens (method f x0 y0 xn (h / 2)).2) =
          (|a - b| / ((2 : ℚ) ^ p - 1)) ::
            List.zipWith (fun a b => |a - b| / ((2 : ℚ) ^ p - 1)) l1 (evens l2.tail) := by
        rw [h1, h2, evens_cons, List.zipWith_cons_cons]
      rw [solve_step method f x0 y0 xn eps p h (m + 1) hc _ _ herrs]
      by_cases herr :
          (List.zipWith (fun a b => |a - b| / ((2 : ℚ) ^ p - 1)) l1
            (evens l2.tail)).foldl max (|a - b| / ((2 : ℚ) ^ p - 1)) ≤ eps
      · rw [if_pos herr]
        exact Or.inl ⟨_, _, _, _, rfl⟩
      · rw [if_neg herr]
        have hhalf : (xn - x0) * 2 ^ m / (h / 2) = (xn - x0) * 2 ^ (m + 1) / h := by
          have hne0 : h ≠ 0 := ne_of_gt hh
          field_simp
          ring
        exact ih (h / 2) (by positivity) (by rw [hhalf]; exact hceil)

/-! ### Runge estimator helpers -/

theorem rungeList_of_ne (yh yh2 : List ℚ) (factor : ℚ) (hf : factor ≠ 0) :
    ∀ idx : List ℕ, rungeList yh yh2 factor idx =
      some (idx.map fun i => |yh2.getD (2 * i) 0 - yh.getD i 0| / factor) := by
  intro idx
  induction idx with
  | nil => rfl
  | cons i rest ih => simp [rungeList, pydiv, hf, ih]

theorem getD_map_range {α : Type} (g : ℕ → α) (d : α) (n i : ℕ) (hi : i < n) :
    ((List.range n).map g).getD i d = g i := by
  rw [List.getD_eq_getElem _ _ (by simp [hi])]
  simp

/-! ### Claim C1 -/

/-- C1: for every input with `h > 0` and `xn > x0` (and a method order
`p ≥ 1` as fixed by the interface, with a stepper that always returns a
nonempty trajectory, as all three steppers do), the driver loop of `solve`
terminates: some finite iteration budget suffices, and the outcome is either
a normal return or the resource-limit `OverflowError` — never an exhausted
budget — because each rejected iteration halves `h` and the ceiling check
runs first in every iteration. -/
theorem claim_C1 (method : (ℚ → ℚ → ℚ) → ℚ → ℚ → ℚ → ℚ → List ℚ × List ℚ)
    (f : ℚ → ℚ → ℚ) (x0 y0 xn eps h : ℚ) (p : ℕ)
    (hh : 0 < h) (hx : x0 < xn) (_hp : 1 ≤ p)
    (hme : ∀ (g : ℚ → ℚ → ℚ) (a b c d : ℚ), (method g a b c d).2 ≠ []) :
    ∃ fuel,
      (∃ xs ys err h', (solve method f x0 y0 xn eps p h fuel).1 = .ok xs ys err h') ∨
        (solve method f x0 y0 xn eps p h fuel).1 = .overflowError := by
  have hd : 0 < xn - x0 := by linarith
  obtain ⟨m, hm⟩ :=
    pow_unbounded_of_one_lt ((MAX_POINTS : ℚ) * h / (xn - x0)) (by norm_num : (1 : ℚ) < 2)
  have hq : (MAX_POINTS : ℚ) ≤ (xn - x0) * 2 ^ m / h := by
    rw [div_lt_iff₀ hd] at hm
    rw [le_div_iff₀ hh]
    nlinarith [hm]
  have hfl : MAX_POINTS ≤ ⌊(xn - x0) * 2 ^ m / h⌋ := Int.le_floor.mpr hq
  have hpr : MAX_POINTS ≤ pyRound ((xn - x0) * 2 ^ m / h) :=
    le_trans hfl (floor_le_pyRound _)
  exact ⟨m + 1, solve_term_aux method f x0 y0 xn eps p hme m h hh hpr⟩

theorem claim_C1_witness :
    (0 : ℚ) < 1 ∧ (0 : ℚ) < 1 ∧ 1 ≤ 1 ∧
    (∀ (g : ℚ → ℚ → ℚ) (a b c d : ℚ),
      ((fun (_ : ℚ → ℚ → ℚ) (a b : ℚ) (_ _ : ℚ) => ([a], [b])) g a b c d).2 ≠ []) ∧
    (∃ fuel,
      (∃ xs ys err h',
        (solve (fun (_ : ℚ → ℚ → ℚ) (a b : ℚ) (_ _ : ℚ) => ([a], [b]))
          ode1_f 0 0 1 1 1 1 fuel).1 = .ok xs ys err h') ∨
      (solve (fun (_ : ℚ → ℚ → ℚ) (a b : ℚ) (_ _ : ℚ) => ([a], [b]))
        ode1_f 0 0 1 1 1 1 fuel).1 = .overflowError) :=
  ⟨by norm_num, by norm_num, le_refl 1, fun g a b c d => by simp,
    claim_C1 (fun (_ : ℚ → ℚ → ℚ) (a b : ℚ) (_ _ : ℚ) => ([a], [b]))
      ode1_f 0 0 1 1 1 1 (by norm_num) (by norm_num) (le_refl 1)
      (fun g a b c d => by simp)⟩

/-! ### Claim C2 -/

/-- C2: whenever `round((xn - x0) / h)` is at least the 150000 ceiling,
`solve` raises the resource-limit `OverflowError` at once, and the stepper
invocation count of the call is 0. -/
theorem claim_C2 (method : (ℚ → ℚ → ℚ) → ℚ → ℚ → ℚ → ℚ → List ℚ × List ℚ)
    (f : ℚ → ℚ → ℚ) (x0 y0 xn eps : ℚ) (p : ℕ) (h : ℚ) (fuel : ℕ)
    (hc : MAX_POINTS ≤ pyRound ((xn - x0) / h)) :
    solve method f x0 y0 xn eps p h (fuel + 1) = (.overflowError, 0) :=
  solve_overflow method f x0 y0 xn eps p h fuel hc

theorem claim_C2_witness :
    MAX_POINTS ≤ pyRound ((150000 - 0) / 1 : ℚ) ∧
    solve euler_method ode1_f 0 0 150000 1 1 1 (0 + 1) = (.overflowError, 0) := by
  have hc : MAX_POINTS ≤ pyRound ((150000 - 0) / 1 : ℚ) := by
    rw [show pyRound ((150000 - 0) / 1 : ℚ) = 150000 from by norm_num [pyRound]]
    norm_num [MAX_POINTS]
  exact ⟨hc, claim_C2 euler_method ode1_f 0 0 150000 1 1 1 0 hc⟩

/-! ### Claim C9 -/

/-- C9: an input with `xn ≤ x0`, `h ≤ 0` or `epsilon ≤ 0` is rejected by the
validation in `parse_input` before any stepping begins: `on_compute` reports
the input error and performs zero stepper invocations, never computing a
partial trajectory. -/
theorem claim_C9 (f : ℚ → ℚ → ℚ) (x0 y0 xn h eps : ℚ) (fuel : ℕ)
    (hbad : xn ≤ x0 ∨ h ≤ 0 ∨ eps ≤ 0) :
    parse_input x0 y0 xn h eps = none ∧
      on_compute f x0 y0 xn h eps fuel = (.inputError, 0) := by
  have hp : parse_input x0 y0 xn h eps = none := by
    unfold parse_input
    rw [if_pos hbad]
  refine ⟨hp, ?_⟩
  unfold on_compute
  rw [hp]

theorem claim_C9_witness :
    ((0 : ℚ) ≤ 0 ∨ (1 : ℚ) ≤ 0 ∨ (1 : ℚ) ≤ 0) ∧
    (parse_input 0 1 0 1 1 = none ∧
      on_compute ode1_f 0 1 0 1 1 5 = (.inputError, 0)) :=
  ⟨Or.inl (le_refl 0), claim_C9 ode1_f 0 1 0 1 1 5 (Or.inl (le_refl 0))⟩

/-! ### Claim C7 -/

/-- C7 counterexample: the claim says `runge_error` NEVER raises, but at
order `p = 0` the normalization factor `2^p - 1` is zero and the division in
the loop raises `ZeroDivisionError` (the outer `none`), already on the valid
size pair `yh = [0]`, `yh2 = [0]`. -/
theorem claim_C7_counterexample : runge_error [0] [0] 0 = none := by
  norm_num [runge_error, rungeList, pydiv]

/-- C7 (amended with `p ≥ 1`, the method orders actually used): `runge_error`
never raises; on a size mismatch it returns `len yh` copies of the NaN
marker, otherwise entry `i` is `|yh2[2i] - yh[i]| / (2^p - 1)`, which is
finite and non-negative. -/
theorem claim_C7 (yh yh2 : List ℚ) (p : ℕ) (hp : 1 ≤ p) :
    ∃ l, runge_error yh yh2 p = some l ∧ l.length = yh.length ∧
      (((yh2.length : ℤ) < 2 * (yh.length : ℤ) - 1) → ∀ o ∈ l, o = none) ∧
      (¬ ((yh2.length : ℤ) < 2 * (yh.length : ℤ) - 1) →
        ∀ i, i < yh.length →
          l.getD i none =
            some (|yh2.getD (2 * i) 0 - yh.getD i 0| / ((2 : ℚ) ^ p - 1)) ∧
          0 ≤ |yh2.getD (2 * i) 0 - yh.getD i 0| / ((2 : ℚ) ^ p - 1)) := by
  have hfac : (0 : ℚ) < (2 : ℚ) ^ p - 1 := by
    have h2 : (2 : ℚ) ≤ 2 ^ p := by
      calc (2 : ℚ) = 2 ^ 1 := (pow_one 2).symm
      _ ≤ 2 ^ p := pow_le_pow_right₀ (by norm_num) hp
    linarith
  by_cases hshort : (yh2.length : ℤ) < 2 * (yh.length : ℤ) - 1
  · refine ⟨List.replicate yh.length none, ?_, by simp,
      fun _ o ho => List.eq_of_mem_replicate ho,
      fun hcontr => absurd hshort hcontr⟩
    unfold runge_error
    rw [if_pos hshort]
  · refine ⟨(List.range yh.length).map
        (fun i => some (|yh2.getD (2 * i) 0 - yh.getD i 0| / ((2 : ℚ) ^ p - 1))),
      ?_, by simp, fun hcontr => absurd hcontr hshort, ?_⟩
    · unfold runge_error
      rw [if_neg hshort, rungeList_of_ne yh yh2 _ (ne_of_gt hfac) _]
      simp [List.map_map, Function.comp]
    · intro _ i hi
      exact ⟨getD_map_range _ none yh.length i hi,
        div_nonneg (abs_nonneg _) hfac.le⟩

theorem claim_C7_witness :
    1 ≤ 1 ∧
    (∃ l, runge_error [1] [1, 2, 3] 1 = some l ∧ l.length = ([1] : List ℚ).length ∧
      ((([1, 2, 3] : List ℚ).length : ℤ) < 2 * (([1] : List ℚ).length : ℤ) - 1 →
        ∀ o ∈ l, o = none) ∧
      (¬ ((([1, 2, 3] : List ℚ).length : ℤ) < 2 * (([1] : List ℚ).length : ℤ) - 1) →
        ∀ i, i < ([1] : List ℚ).length →
          l.getD i none =
            some (|([1, 2, 3] : List ℚ).getD (2 * i) 0 - ([1] : List ℚ).getD i 0| /
              ((2 : ℚ) ^ 1 - 1)) ∧
          0 ≤ |([1, 2, 3] : List ℚ).getD (2 * i) 0 - ([1] : List ℚ).getD i 0| /
              ((2 : ℚ) ^ 1 - 1))) :=
  ⟨le_refl 1, claim_C7 [1] [1, 2, 3] 1 (le_refl 1)⟩

/-! ### Concrete stepper evaluations used by C3 and C4 -/

theorem euler_eval_h1 : euler_method ode1_f 0 1 (6 / 5) 1 = ([0, 1, 2], [1, 3, 6]) := by
  rw [euler_method, show stepperFuel 0 (6 / 5) 1 = 3 from by
    norm_num [stepperFuel, ceil_as_floor]; rfl]
  norm_num [eulerLoop, ode1_f]

theorem euler_eval_h2 :
    euler_method ode1_f 0 1 (6 / 5) (1 / 2) =
      ([0, 1 / 2, 1, 3 / 2], [1, 2, 27 / 8, 81 / 16]) := by
  rw [euler_method, show stepperFuel 0 (6 / 5) (1 / 2) = 4 from by
    norm_num [stepperFuel, ceil_as_floor]; rfl]
  norm_num [eulerLoop, ode1_f]

theorem milne_eval_h1 :
    milne_method ode1_f 0 1 (1 / 2) 1 = ([0, 1, 2, 3], [1, 7 / 2, 29 / 4, 89 / 8]) := by
  rw [milne_method, show stepperFuel 0 (1 / 2) 1 = 2 from by
    norm_num [stepperFuel, ceil_as_floor]]
  norm_num [milneBoot, milneLoop, heunStep, ode1_f, tol14]

theorem milne_eval_h2 :
    milne_method ode1_f 0 1 (1 / 2) (1 / 2) =
      ([0, 1 / 2, 1, 3 / 2], [1, 35 / 16, 491 / 128, 6063 / 1024]) := by
  rw [milne_method, show stepperFuel 0 (1 / 2) (1 / 2) = 2 from by
    norm_num [stepperFuel, ceil_as_floor]]
  norm_num [milneBoot, milneLoop, heunStep, ode1_f, tol14]

/-! ### Claim C3 -/

/-- C3 (evaluation at the failing input): called through `solve` with the
Milne stepper on an interval too short for 4 grid points (`x0 = 0`,
`xn = 1/2`, `h = 1`), the code raises no "insufficient points" error at all:
the unconditional bootstrap still produces 4 points (overshooting to
`x = 3`), the error bound `43/1920` passes the generous `eps = 10`, and
`solve` returns normally — contradicting the claimed distinct error. -/
theorem claim_C3_eval :
    solve milne_method ode1_f 0 1 (1 / 2) 10 4 1 (0 + 1) =
      (.ok [0, 1, 2, 3] [1, 7 / 2, 29 / 4, 89 / 8] (43 / 1920) 1, 2) := by
  have hceil : ¬ MAX_POINTS ≤ pyRound ((1 / 2 - 0) / 1 : ℚ) := by
    rw [show pyRound ((1 / 2 - 0) / 1 : ℚ) = 0 from by norm_num [pyRound]]
    norm_num [MAX_POINTS]
  have herrs : List.zipWith (fun a b => |a - b| / ((2 : ℚ) ^ 4 - 1))
      (milne_method ode1_f 0 1 (1 / 2) 1).2
      (evens (milne_method ode1_f 0 1 (1 / 2) (1 / 2)).2) = 0 :: [43 / 1920] := by
    rw [milne_eval_h1, milne_eval_h2]
    norm_num [evens]
    rw [abs_of_nonneg (by norm_num : (0 : ℚ) ≤ 43 / 128)]
    norm_num
  rw [solve_step milne_method ode1_f 0 1 (1 / 2) 10 4 1 0 hceil 0 [43 / 1920] herrs]
  rw [show ([43 / 1920] : List ℚ).foldl max 0 = 43 / 1920 from by
    norm_num [List.foldl, max_def]]
  rw [if_pos (by norm_num : (43 / 1920 : ℚ) ≤ 10), milne_eval_h1]

/-! ### Claim C4 -/

/-- C4 counterexample: on `x0 = 0`, `y0 = 1`, `xn = 6/5`, `h = 1`, `eps = 1`,
`p = 1` with the Euler stepper, `solve` accepts with `err = 3/8`, yet the
fine trajectory has only 4 points — fewer than `2·len(ys1) - 1 = 5` — so the
zip in the code silently drops index 2 of `ys1`, and the claim's
"maximum over all indices of ys1" (totalized reading) is `6 ≠ 3/8`. -/
theorem claim_C4_counterexample :
    solve euler_method ode1_f 0 1 (6 / 5) 1 1 1 (0 + 1) =
      (.ok [0, 1, 2] [1, 3, 6] (3 / 8) 1, 2) ∧
    (euler_method ode1_f 0 1 (6 / 5) 1).2.length = 3 ∧
    (euler_method ode1_f 0 1 (6 / 5) (1 / 2)).2.length = 4 ∧
    ¬ ((2 * 3 - 1 : ℕ) ≤ 4) ∧
    errAllIndices [1, 3, 6] [1, 2, 27 / 8, 81 / 16] 1 = 6 ∧
    (3 / 8 : ℚ) ≠ 6 := by
  have hceil : ¬ MAX_POINTS ≤ pyRound ((6 / 5 - 0) / 1 : ℚ) := by
    rw [show pyRound ((6 / 5 - 0) / 1 : ℚ) = 1 from by norm_num [pyRound]]
    norm_num [MAX_POINTS]
  have herrs : List.zipWith (fun a b => |a - b| / ((2 : ℚ) ^ 1 - 1))
      (euler_method ode1_f 0 1 (6 / 5) 1).2
      (evens (euler_method ode1_f 0 1 (6 / 5) (1 / 2)).2) = 0 :: [3 / 8] := by
    rw [euler_eval_h1, euler_eval_h2]
    norm_num [evens]
  refine ⟨?_, by rw [euler_eval_h1]; rfl, by rw [euler_eval_h2]; rfl, by norm_num, ?_, by norm_num⟩
  · rw [solve_step euler_method ode1_f 0 1 (6 / 5) 1 1 1 0 hceil 0 [3 / 8] herrs]
    rw [show ([3 / 8] : List ℚ).foldl max 0 = 3 / 8 from by
      norm_num [List.foldl, max_def]]
    rw [if_pos (by norm_num : (3 / 8 : ℚ) ≤ 1), euler_eval_h1]
  · have h1 : |(1 : ℚ) - 1| = 0 := by norm_num
    have h2 : |(3 : ℚ) - 27 / 8| = 3 / 8 := by
      rw [show (3 : ℚ) - 27 / 8 = -(3 / 8) from by norm_num, abs_neg]
      exact abs_of_nonneg (by norm_num)
    have h3 : |(6 : ℚ) - 0| = 6 := by
      rw [show (6 : ℚ) - 0 = 6 from by norm_num]
      exact abs_of_nonneg (by norm_num)
    have hexp : errAllIndices [1, 3, 6] [1, 2, 27 / 8, 81 / 16] 1 =
        List.foldl max 0 [|(1 : ℚ) - 1| / (2 ^ 1 - 1), |(3 : ℚ) - 27 / 8| / (2 ^ 1 - 1),
          |(6 : ℚ) - 0| / (2 ^ 1 - 1)] := rfl
    rw [hexp, List.foldl_cons, List.foldl_cons, List.foldl_cons, List.foldl_nil,
      h1, h2, h3]
    norm_num [max_def]

/-- C4 (amended): on a non-overflowing iteration of `solve`, the scalar
bound `err` is the maximum of the zip-truncated list
`[|ys1[i] - ys2even[i]| / (2^p - 1) : i < min(len ys1, len(ys2[::2]))]`
(not of all indices of `ys1`); the iteration returns exactly
`(xs1, ys1, err, h)` when `err ≤ eps` and otherwise halves `h` and
continues. -/
theorem claim_C4 (method : (ℚ → ℚ → ℚ) → ℚ → ℚ → ℚ → ℚ → List ℚ × List ℚ)
    (f : ℚ → ℚ → ℚ) (x0 y0 xn eps : ℚ) (p : ℕ) (h : ℚ) (fuel : ℕ)
    (hc : ¬ MAX_POINTS ≤ pyRound ((xn - x0) / h))
    (e : ℚ) (rest : List ℚ)
    (herrs : List.zipWith (fun a b => |a - b| / ((2 : ℚ) ^ p - 1))
      (method f x0 y0 xn h).2 (evens (method f x0 y0 xn (h / 2)).2) = e :: rest) :
    (rest.foldl max e ∈ e :: rest ∧ ∀ a ∈ e :: rest, a ≤ rest.foldl max e) ∧
    (rest.foldl max e ≤ eps →
      solve method f x0 y0 xn eps p h (fuel + 1) =
        (.ok (method f x0 y0 xn h).1 (method f x0 y0 xn h).2 (rest.foldl max e) h, 2)) ∧
    (¬ rest.foldl max e ≤ eps →
      solve method f x0 y0 xn eps p h (fuel + 1) =
        ((solve method f x0 y0 xn eps p (h / 2) fuel).1,
          (solve method f x0 y0 xn eps p (h / 2) fuel).2 + 2)) := by
  refine ⟨⟨foldl_max_mem rest e, fun a ha => foldl_max_ub rest e a ha⟩, ?_, ?_⟩
  · intro hle
    rw [solve_step method f x0 y0 xn eps p h fuel hc e rest herrs, if_pos hle]
  · intro hgt
    rw [solve_step method f x0 y0 xn eps p h fuel hc e rest herrs, if_neg hgt]

theorem claim_C4_witness :
    (¬ MAX_POINTS ≤ pyRound ((6 / 5 - 0) / 1 : ℚ)) ∧
    (List.zipWith (fun a b => |a - b| / ((2 : ℚ) ^ 1 - 1))
      (euler_method ode1_f 0 1 (6 / 5) 1).2
      (evens (euler_method ode1_f 0 1 (6 / 5) (1 / 2)).2) = 0 :: [3 / 8]) ∧
    ((([3 / 8] : List ℚ).foldl max 0 ∈ (0 : ℚ) :: [3 / 8] ∧
        ∀ a ∈ (0 : ℚ) :: [3 / 8], a ≤ ([3 / 8] : List ℚ).foldl max 0) ∧
      (([3 / 8] : List ℚ).foldl max 0 ≤ 1 →
        solve euler_method ode1_f 0 1 (6 / 5) 1 1 1 (0 + 1) =
          (.ok (euler_method ode1_f 0 1 (6 / 5) 1).1
            (euler_method ode1_f 0 1 (6 / 5) 1).2 (([3 / 8] : List ℚ).foldl max 0) 1, 2)) ∧
      (¬ ([3 / 8] : List ℚ).foldl max 0 ≤ 1 →
        solve euler_method ode1_f 0 1 (6 / 5) 1 1 1 (0 + 1) =
          ((solve euler_method ode1_f 0 1 (6 / 5) 1 1 (1 / 2) 0).1,
            (solve euler_method ode1_f 0 1 (6 / 5) 1 1 (1 / 2) 0).2 + 2))) := by
  have hceil : ¬ MAX_POINTS ≤ pyRound ((6 / 5 - 0) / 1 : ℚ) := by
    rw [show pyRound ((6 / 5 - 0) / 1 : ℚ) = 1 from by norm_num [pyRound]]
    norm_num [MAX_POINTS]
  have herrs : List.zipWith (fun a b => |a - b| / ((2 : ℚ) ^ 1 - 1))
      (euler_method ode1_f 0 1 (6 / 5) 1).2
      (evens (euler_method ode1_f 0 1 (6 / 5) (1 / 2)).2) = 0 :: [3 / 8] := by
    rw [euler_eval_h1, euler_eval_h2]
    norm_num [evens]
  exact ⟨hceil, herrs,
    claim_C4 euler_method ode1_f 0 1 (6 / 5) 1 1 1 0 hceil 0 [3 / 8] herrs⟩

/-- Structural unfolding of `milne_method`: the bootstrap lists and the
derivative cache written out. -/
theorem milne_method_eq (f : ℚ → ℚ → ℚ) (x0 y0 xn h : ℚ) :
    milne_method f x0 y0 xn h = milneLoop f xn h
      [x0, x0 + h, x0 + h + h, x0 + h + h + h]
      [y0, heunStep f h x0 y0, heunStep f h (x0 + h) (heunStep f h x0 y0),
        heunStep f h (x0 + h + h) (heunStep f h (x0 + h) (heunStep f h x0 y0))]
      [f x0 y0, f (x0 + h) (heunStep f h x0 y0),
        f (x0 + h + h) (heunStep f h (x0 + h) (heunStep f h x0 y0)),
        f (x0 + h + h + h)
          (heunStep f h (x0 + h + h) (heunStep f h (x0 + h) (heunStep f h x0 y0)))]
      3 (stepperFuel x0 xn h) := rfl

/-! ### Claim C5 -/

/-- C5: in any Milne trajectory (pictured as `(Xs, Ys)`), every point past
the 4 bootstrap points is produced by the Milne predictor
`y_pred = y_{i-3} + (4h/3)(2 f_i - f_{i-1} + 2 f_{i-2})`, then
`f_pred = f(x_i + h, y_pred)`, then the corrector
`y_{i+1} = y_{i-1} + (h/3)(f_{i-1} + 4 f_i + f_pred)` with the cached
derivatives equal to `f(x_j, y_j)`; the grid advances by `h`; and the loop
runs exactly while `x_last + 1e-14 < xn`: every produced index passed the
guard and the final point fails it. -/
theorem claim_C5 (f : ℚ → ℚ → ℚ) (x0 y0 xn h : ℚ) (hh : 0 < h) :
    ∀ Xs Ys, milne_method f x0 y0 xn h = (Xs, Ys) →
      4 ≤ Xs.length ∧ Ys.length = Xs.length ∧
      (∀ k, 4 ≤ k → k < Xs.length →
        Xs.getD k 0 = Xs.getD (k - 1) 0 + h ∧
        Xs.getD (k - 1) 0 + tol14 < xn ∧
        Ys.getD k 0 = Ys.getD (k - 2) 0 + (h / 3) *
          (f (Xs.getD (k - 2) 0) (Ys.getD (k - 2) 0) +
           4 * f (Xs.getD (k - 1) 0) (Ys.getD (k - 1) 0) +
           f (Xs.getD (k - 1) 0 + h)
             (Ys.getD (k - 4) 0 + (4 * h / 3) *
               (2 * f (Xs.getD (k - 1) 0) (Ys.getD (k - 1) 0) -
                f (Xs.getD (k - 2) 0) (Ys.getD (k - 2) 0) +
                2 * f (Xs.getD (k - 3) 0) (Ys.getD (k - 3) 0))))) ∧
      ¬ (Xs.getLastD 0 + tol14 < xn) := by
  intro Xs Ys hrun
  rw [milne_method_eq] at hrun
  have hlast : ([x0, x0 + h, x0 + h + h, x0 + h + h + h] : List ℚ).getLastD 0 =
      x0 + h + h + h := rfl
  have hfuel : (⌈(xn - (x0 + h + h + h)) / h⌉).toNat < stepperFuel x0 xn h := by
    have hmono : ⌈(xn - (x0 + h + h + h)) / h⌉ ≤ ⌈(xn - x0) / h⌉ :=
      Int.ceil_le_ceil (by gcongr; linarith)
    rw [stepperFuel]
    omega
  obtain ⟨⟨t, hXs⟩, ⟨u, hYs⟩, hlen, hprops, hguard⟩ :=
    milneLoop_go f xn h hh (stepperFuel x0 xn h) _ _ _ 3
      (by simp)
      (by rfl)
      (by rfl)
      (by rfl)
      (by omega)
      (by
        intro j hj
        simp only [List.length_cons, List.length_nil] at hj
        interval_cases j <;> rfl)
      (by rw [hlast]; exact hfuel)
      Xs Ys hrun
  refine ⟨by rw [hXs]; simp, hlen, ?_, hguard⟩
  intro k hk4 hklt
  exact hprops k (by simpa using hk4) hklt

theorem claim_C5_witness :
    (0 : ℚ) < 1 ∧
    (4 ≤ ([0, 1, 2, 3, 4, 5] : List ℚ).length ∧
      ([0, 0, 0, 0, 0, 0] : List ℚ).length = ([0, 1, 2, 3, 4, 5] : List ℚ).length ∧
      (∀ k, 4 ≤ k → k < ([0, 1, 2, 3, 4, 5] : List ℚ).length →
        ([0, 1, 2, 3, 4, 5] : List ℚ).getD k 0 =
          ([0, 1, 2, 3, 4, 5] : List ℚ).getD (k - 1) 0 + 1 ∧
        ([0, 1, 2, 3, 4, 5] : List ℚ).getD (k - 1) 0 + tol14 < 5 ∧
        ([0, 0, 0, 0, 0, 0] : List ℚ).getD k 0 =
          ([0, 0, 0, 0, 0, 0] : List ℚ).getD (k - 2) 0 + ((1 : ℚ) / 3) *
            ((fun (_ _ : ℚ) => (0 : ℚ)) (([0, 1, 2, 3, 4, 5] : List ℚ).getD (k - 2) 0)
                (([0, 0, 0, 0, 0, 0] : List ℚ).getD (k - 2) 0) +
              4 * (fun (_ _ : ℚ) => (0 : ℚ)) (([0, 1, 2, 3, 4, 5] : List ℚ).getD (k - 1) 0)
                (([0, 0, 0, 0, 0, 0] : List ℚ).getD (k - 1) 0) +
              (fun (_ _ : ℚ) => (0 : ℚ)) (([0, 1, 2, 3, 4, 5] : List ℚ).getD (k - 1) 0 + 1)
                (([0, 0, 0, 0, 0, 0] : List ℚ).getD (k - 4) 0 + (4 * 1 / 3) *
                  (2 * (fun (_ _ : ℚ) => (0 : ℚ))
                      (([0, 1, 2, 3, 4, 5] : List ℚ).getD (k - 1) 0)
                      (([0, 0, 0, 0, 0, 0] : List ℚ).getD (k - 1) 0) -
                    (fun (_ _ : ℚ) => (0 : ℚ))
                      (([0, 1, 2, 3, 4, 5] : List ℚ).getD (k - 2) 0)
                      (([0, 0, 0, 0, 0, 0] : List ℚ).getD (k - 2) 0) +
                    2 * (fun (_ _ : ℚ) => (0 : ℚ))
                      (([0, 1, 2, 3, 4, 5] : List ℚ).getD (k - 3) 0)
                      (([0, 0, 0, 0, 0, 0] : List ℚ).getD (k - 3) 0))))) ∧
      ¬ (([0, 1, 2, 3, 4, 5] : List ℚ).getLastD 0 + tol14 < 5)) := by
  have hrun : milne_method (fun (_ _ : ℚ) => (0 : ℚ)) 0 0 5 1 =
      ([0, 1, 2, 3, 4, 5], [0, 0, 0, 0, 0, 0]) := by
    rw [milne_method, show stepperFuel 0 5 1 = 6 from by
      norm_num [stepperFuel, ceil_as_floor]; rfl]
    norm_num [milneBoot, milneLoop, heunStep, tol14]
  exact ⟨by norm_num,
    claim_C5 (fun (_ _ : ℚ) => (0 : ℚ)) 0 0 5 1 (by norm_num)
      [0, 1, 2, 3, 4, 5] [0, 0, 0, 0, 0, 0] hrun⟩

/-! ### Claim C10 -/

/-- C10: for `h > 0` the Milne stepper bootstraps unconditionally, so its
trajectory always has at least 4 points; and on a short interval
(`x0 < xn ≤ x0 + 3h`) it is exactly the 4 bootstrap points, whose last
abscissa `x0 + 3h` reaches or passes `xn` by at most `3h`, with no error
raised and no point-count check. -/
theorem claim_C10 (f : ℚ → ℚ → ℚ) (x0 y0 xn h : ℚ) (_hh : 0 < h) :
    4 ≤ (milne_method f x0 y0 xn h).1.length ∧
    (x0 < xn → xn ≤ x0 + 3 * h →
      (milne_method f x0 y0 xn h).1 = [x0, x0 + h, x0 + h + h, x0 + h + h + h] ∧
      (milne_method f x0 y0 xn h).1.getLastD 0 = x0 + h + h + h ∧
      xn ≤ (milne_method f x0 y0 xn h).1.getLastD 0 ∧
      (milne_method f x0 y0 xn h).1.getLastD 0 - xn ≤ 3 * h) := by
  have htol : (0 : ℚ) < tol14 := by norm_num [tol14]
  constructor
  · rw [milne_method_eq]
    obtain ⟨t, u, ht⟩ := milneLoop_append f xn h (stepperFuel x0 xn h)
      [x0, x0 + h, x0 + h + h, x0 + h + h + h]
      [y0, heunStep f h x0 y0, heunStep f h (x0 + h) (heunStep f h x0 y0),
        heunStep f h (x0 + h + h) (heunStep f h (x0 + h) (heunStep f h x0 y0))]
      [f x0 y0, f (x0 + h) (heunStep f h x0 y0),
        f (x0 + h + h) (heunStep f h (x0 + h) (heunStep f h x0 y0)),
        f (x0 + h + h + h)
          (heunStep f h (x0 + h + h) (heunStep f h (x0 + h) (heunStep f h x0 y0)))]
      3
    rw [ht]
    simp
  · intro hx1 hx2
    have hguard : ¬ (([x0, x0 + h, x0 + h + h, x0 + h + h + h] : List ℚ).getLastD 0
        + tol14 < xn) := by
      rw [show ([x0, x0 + h, x0 + h + h, x0 + h + h + h] : List ℚ).getLastD 0 =
        x0 + h + h + h from rfl]
      push_neg
      linarith
    have hstop : milne_method f x0 y0 xn h =
        ([x0, x0 + h, x0 + h + h, x0 + h + h + h],
         [y0, heunStep f h x0 y0, heunStep f h (x0 + h) (heunStep f h x0 y0),
          heunStep f h (x0 + h + h) (heunStep f h (x0 + h) (heunStep f h x0 y0))]) := by
      rw [milne_method_eq]
      rw [show stepperFuel x0 xn h = (⌈(xn - x0) / h⌉).toNat + 1 from rfl]
      simp only [milneLoop]
      rw [if_neg hguard]
    rw [hstop]
    refine ⟨rfl, rfl, ?_, ?_⟩
    · rw [show ([x0, x0 + h, x0 + h + h, x0 + h + h + h] : List ℚ).getLastD 0 =
        x0 + h + h + h from rfl]
      linarith
    · rw [show ([x0, x0 + h, x0 + h + h, x0 + h + h + h] : List ℚ).getLastD 0 =
        x0 + h + h + h from rfl]
      linarith

theorem claim_C10_witness :
    (0 : ℚ) < 1 ∧
    (4 ≤ (milne_method ode1_f 0 1 (1 / 2) 1).1.length ∧
      ((0 : ℚ) < 1 / 2 → (1 / 2 : ℚ) ≤ 0 + 3 * 1 →
        (milne_method ode1_f 0 1 (1 / 2) 1).1 = [0, 0 + 1, 0 + 1 + 1, 0 + 1 + 1 + 1] ∧
        (milne_method ode1_f 0 1 (1 / 2) 1).1.getLastD 0 = 0 + 1 + 1 + 1 ∧
        (1 / 2 : ℚ) ≤ (milne_method ode1_f 0 1 (1 / 2) 1).1.getLastD 0 ∧
        (milne_method ode1_f 0 1 (1 / 2) 1).1.getLastD 0 - 1 / 2 ≤ 3 * 1)) :=
  ⟨by norm_num, claim_C10 ode1_f 0 1 (1 / 2) 1 (by norm_num)⟩

/-! ### Claim C6 -/

/-- C6 counterexample: with `x0 = 0`, `xn = 1`, `h = 1` (so `h > 0` and
`xn > x0`), the Milne trajectory has a point at index 3 (`x = 3`) while the
Improved Euler run with the same parameters stops after one step and has no
index 3 at all — the claimed equality of the points at indices 1..3 fails. -/
theorem claim_C6_counterexample :
    (milne_method ode1_f 0 1 1 1).1.get? 3 = some 3 ∧
    (improved_euler_method ode1_f 0 1 1 1).1.get? 3 = none := by
  have h1 : milne_method ode1_f 0 1 1 1 = ([0, 1, 2, 3], [1, 7 / 2, 29 / 4, 89 / 8]) := by
    rw [milne_method, show stepperFuel 0 1 1 = 2 from by
      norm_num [stepperFuel, ceil_as_floor]]
    norm_num [milneBoot, milneLoop, heunStep, ode1_f, tol14]
  have h2 : improved_euler_method ode1_f 0 1 1 1 = ([0, 1], [1, 7 / 2]) := by
    rw [improved_euler_method, show stepperFuel 0 1 1 = 2 from by
      norm_num [stepperFuel, ceil_as_floor]]
    norm_num [improvedEulerLoop, heunStep, ode1_f]
  rw [h1, h2]
  exact ⟨rfl, rfl⟩

theorem ieLoop_step (f : ℚ → ℚ → ℚ) (xn h x y : ℚ) (xs ys : List ℚ) (n : ℕ)
    (hx : x < xn) :
    improvedEulerLoop f xn h x y xs ys (n + 1) =
      improvedEulerLoop f xn h (x + h) (heunStep f h x y)
        (xs ++ [x + h]) (ys ++ [heunStep f h x y]) n := by
  simp only [improvedEulerLoop]
  rw [if_pos hx]

/-- C6 (amended with the interval actually admitting 4 Improved Euler
points, `x0 + 2h < xn`): the first four points (indices 0..3, hence in
particular indices 1, 2, 3) of the Milne trajectory coincide exactly, in
both coordinates, with those of the Improved Euler trajectory for the same
`(x0, y0, xn, h)`, and both trajectories do have at least 4 points. -/
theorem claim_C6 (f : ℚ → ℚ → ℚ) (x0 y0 xn h : ℚ) (hh : 0 < h)
    (hx : x0 + 2 * h < xn) :
    4 ≤ (improved_euler_method f x0 y0 xn h).1.length ∧
    4 ≤ (milne_method f x0 y0 xn h).1.length ∧
    (milne_method f x0 y0 xn h).1.take 4 = (improved_euler_method f x0 y0 xn h).1.take 4 ∧
    (milne_method f x0 y0 xn h).2.take 4 = (improved_euler_method f x0 y0 xn h).2.take 4 := by
  have hg0 : x0 < xn := by linarith
  have hg1 : x0 + h < xn := by linarith
  have hg2 : x0 + h + h < xn := by linarith
  have hc3 : 3 ≤ (⌈(xn - x0) / h⌉).toNat := by
    have h2q : (2 : ℚ) < (xn - x0) / h := by
      rw [lt_div_iff₀ hh]
      linarith
    have h23 : (2 : ℤ) < ⌈(xn - x0) / h⌉ := Int.lt_ceil.mpr (by exact_mod_cast h2q)
    omega
  obtain ⟨m, hm⟩ : ∃ m, stepperFuel x0 xn h = m + 4 :=
    ⟨(⌈(xn - x0) / h⌉).toNat - 3, by rw [stepperFuel]; omega⟩
  have hie : improved_euler_method f x0 y0 xn h =
      improvedEulerLoop f xn h (x0 + h + h + h)
        (heunStep f h (x0 + h + h) (heunStep f h (x0 + h) (heunStep f h x0 y0)))
        ([x0] ++ [x0 + h] ++ [x0 + h + h] ++ [x0 + h + h + h])
        ([y0] ++ [heunStep f h x0 y0] ++ [heunStep f h (x0 + h) (heunStep f h x0 y0)] ++
          [heunStep f h (x0 + h + h) (heunStep f h (x0 + h) (heunStep f h x0 y0))])
        (m + 1) := by
    rw [improved_euler_method, hm]
    rw [show m + 4 = m + 3 + 1 from rfl,
      ieLoop_step f xn h x0 y0 [x0] [y0] (m + 3) hg0]
    rw [show m + 3 = m + 2 + 1 from rfl,
      ieLoop_step f xn h (x0 + h) (heunStep f h x0 y0)
        ([x0] ++ [x0 + h]) ([y0] ++ [heunStep f h x0 y0]) (m + 2) hg1]
    rw [show m + 2 = m + 1 + 1 from rfl,
      ieLoop_step f xn h (x0 + h + h) (heunStep f h (x0 + h) (heunStep f h x0 y0))
        ([x0] ++ [x0 + h] ++ [x0 + h + h])
        ([y0] ++ [heunStep f h x0 y0] ++ [heunStep f h (x0 + h) (heunStep f h x0 y0)])
        (m + 1) hg2]
  obtain ⟨t', u', ht'⟩ := improvedEulerLoop_append f xn h (m + 1)
    (x0 + h + h + h)
    (heunStep f h (x0 + h + h) (heunStep f h (x0 + h) (heunStep f h x0 y0)))
    ([x0] ++ [x0 + h] ++ [x0 + h + h] ++ [x0 + h + h + h])
    ([y0] ++ [heunStep f h x0 y0] ++ [heunStep f h (x0 + h) (heunStep f h x0 y0)] ++
      [heunStep f h (x0 + h + h) (heunStep f h (x0 + h) (heunStep f h x0 y0))])
  obtain ⟨t, u, ht⟩ := milneLoop_append f xn h (stepperFuel x0 xn h)
    [x0, x0 + h, x0 + h + h, x0 + h + h + h]
    [y0, heunStep f h x0 y0, heunStep f h (x0 + h) (heunStep f h x0 y0),
      heunStep f h (x0 + h + h) (heunStep f h (x0 + h) (heunStep f h x0 y0))]
    [f x0 y0, f (x0 + h) (heunStep f h x0 y0),
      f (x0 + h + h) (heunStep f h (x0 + h) (heunStep f h x0 y0)),
      f (x0 + h + h + h)
        (heunStep f h (x0 + h + h) (heunStep f h (x0 + h) (heunStep f h x0 y0)))]
    3
  rw [milne_method_eq, ht, hie, ht']
  refine ⟨by simp, by simp, ?_, ?_⟩
  · show ((([x0] ++ [x0 + h] ++ [x0 + h + h] ++ [x0 + h + h + h]) ++ t).take 4 =
      (([x0] ++ [x0 + h] ++ [x0 + h + h] ++ [x0 + h + h + h]) ++ t').take 4)
    rw [List.take_left' (by rfl), List.take_left' (by rfl)]
  · show ((([y0] ++ [heunStep f h x0 y0] ++ [heunStep f h (x0 + h) (heunStep f h x0 y0)] ++
        [heunStep f h (x0 + h + h) (heunStep f h (x0 + h) (heunStep f h x0 y0))]) ++ u).take 4 =
      (([y0] ++ [heunStep f h x0 y0] ++ [heunStep f h (x0 + h) (heunStep f h x0 y0)] ++
        [heunStep f h (x0 + h + h) (heunStep f h (x0 + h) (heunStep f h x0 y0))]) ++ u').take 4)
    rw [List.take_left' (by rfl), List.take_left' (by rfl)]

theorem claim_C6_witness :
    (0 : ℚ) < 1 ∧ (0 : ℚ) + 2 * 1 < 4 ∧
    (4 ≤ (improved_euler_method ode1_f 0 1 4 1).1.length ∧
      4 ≤ (milne_method ode1_f 0 1 4 1).1.length ∧
      (milne_method ode1_f 0 1 4 1).1.take 4 =
        (improved_euler_method ode1_f 0 1 4 1).1.take 4 ∧
      (milne_method ode1_f 0 1 4 1).2.take 4 =
        (improved_euler_method ode1_f 0 1 4 1).2.take 4) :=
  ⟨by norm_num, by norm_num, claim_C6 ode1_f 0 1 4 1 (by norm_num) (by norm_num)⟩

/-! ### Claim C8 -/

/-- Shared shape argument for the Euler and Improved Euler `x`-grids: the
trajectory is `x0 + k·h` for `k = 0 .. ⌈(xn-x0)/h⌉`; exactly
`⌈(xn-x0)/h⌉` samples are strictly below `xn`; the final sample reaches or
passes `xn`. -/
theorem xs_shape_props (x0 xn h : ℚ) (hh : 0 < h) (hx : x0 < xn) (L : List ℚ)
    (hL : L = [x0] ++ (List.range (⌈(xn - x0) / h⌉).toNat).map
      (fun k : ℕ => x0 + ((k : ℚ) + 1) * h)) :
    L = (List.range ((⌈(xn - x0) / h⌉).toNat + 1)).map (fun k : ℕ => x0 + (k : ℚ) * h) ∧
    L.countP (fun a => a < xn) = (⌈(xn - x0) / h⌉).toNat ∧
    xn ≤ L.getLastD 0 := by
  have hq : 0 < (xn - x0) / h := div_pos (by linarith) hh
  have hc1 : 1 ≤ ⌈(xn - x0) / h⌉ := Int.one_le_ceil_iff.mpr hq
  set M := (⌈(xn - x0) / h⌉).toNat with hM
  have hMc : (M : ℤ) = ⌈(xn - x0) / h⌉ := by omega
  have htail : (List.range M).map (fun k : ℕ => x0 + ((k : ℚ) + 1) * h) =
      (List.range M).map ((fun k : ℕ => x0 + (k : ℚ) * h) ∘ Nat.succ) :=
    List.map_congr_left (fun k _ => by simp only [Function.comp]; push_cast; ring)
  have hL2 : L = (List.range (M + 1)).map (fun k : ℕ => x0 + (k : ℚ) * h) := by
    rw [hL, List.range_succ_eq_map, List.map_cons, htail, List.singleton_append]
    norm_num
  have hiff : ∀ k : ℕ, (x0 + (k : ℚ) * h < xn) ↔ (k < M) := by
    intro k
    have hstep : (x0 + (k : ℚ) * h < xn) ↔ ((k : ℚ) < (xn - x0) / h) := by
      rw [lt_div_iff₀ hh]
      constructor <;> intro <;> linarith
    rw [hstep]
    constructor
    · intro hlt
      have h1 : (k : ℤ) < ⌈(xn - x0) / h⌉ := Int.lt_ceil.mpr (by exact_mod_cast hlt)
      omega
    · intro hlt
      have h1 : (k : ℤ) < ⌈(xn - x0) / h⌉ := by omega
      exact_mod_cast Int.lt_ceil.mp h1
  refine ⟨hL2, ?_, ?_⟩
  · rw [hL2, List.countP_map]
    have hpt : ∀ k ∈ List.range (M + 1),
        ((fun a : ℚ => decide (a < xn)) ∘ (fun k : ℕ => x0 + (k : ℚ) * h)) k = true ↔
          (fun k : ℕ => decide (k < M)) k = true := by
      intro k _
      simp only [Function.comp, decide_eq_true_eq]
      exact hiff k
    rw [List.countP_congr hpt, List.range_succ, List.countP_append]
    have hall : (List.range M).countP (fun k => decide (k < M)) = M := by
      have h1 : (List.range M).countP (fun k => decide (k < M)) =
          (List.range M).length :=
        List.countP_eq_length.mpr (fun a ha => by simpa using List.mem_range.mp ha)
      rw [h1, List.length_range]
    rw [hall]
    simp
  · rw [hL2]
    have hne : ((List.range (M + 1)).map (fun k : ℕ => x0 + (k : ℚ) * h)) ≠ [] := by simp
    rw [lastD_eq_getD _ hne,
      show ((List.range (M + 1)).map (fun k : ℕ => x0 + (k : ℚ) * h)).length - 1 = M
        from by simp,
      getD_map_range _ 0 (M + 1) M (by omega)]
    have hle : (xn - x0) / h ≤ (M : ℚ) := by
      have h1 := Int.le_ceil ((xn - x0) / h)
      rw [← hMc] at h1
      exact_mod_cast h1
    rw [div_le_iff₀ hh] at hle
    linarith

/-- C8 counterexample: with `x0 = 0`, `xn = 1`, `h = 1/2` the step divides
the interval exactly: the Euler grid is `[0, 1/2, 1]`, only 2 samples (not
`⌊(xn-x0)/h⌋ + 1 = 3`) lie strictly below `xn`, and the final sample equals
`xn` — there is no overshoot sample. -/
theorem claim_C8_counterexample :
    (euler_method ode1_f 0 1 1 (1 / 2)).1 = [0, 1 / 2, 1] ∧
    (euler_method ode1_f 0 1 1 (1 / 2)).1.countP (fun a => a < 1) = 2 ∧
    ((⌊((1 : ℚ) - 0) / (1 / 2)⌋ + 1 : ℤ) ≠ 2) ∧
    ¬ ((1 : ℚ) < (euler_method ode1_f 0 1 1 (1 / 2)).1.getLastD 0) := by
  have he : euler_method ode1_f 0 1 1 (1 / 2) = ([0, 1 / 2, 1], [1, 2, 27 / 8]) := by
    rw [euler_method, show stepperFuel 0 1 (1 / 2) = 3 from by
      norm_num [stepperFuel, ceil_as_floor]; rfl]
    norm_num [eulerLoop, ode1_f]
  refine ⟨by rw [he], ?_, by norm_num, ?_⟩
  · rw [he]
    simp only [List.countP_cons, List.countP_nil]
    norm_num
  · rw [he, show (([0, 1 / 2, 1] : List ℚ), ([1, 2, 27 / 8] : List ℚ)).1.getLastD 0 = 1
      from rfl]
    norm_num

/-- C8 (amended): for `h > 0` and `xn > x0` the Euler and Improved Euler
trajectories are the grid `x0 + k·h`, `k = 0 .. ⌈(xn-x0)/h⌉`; exactly
`⌈(xn-x0)/h⌉` samples satisfy `x < xn` strictly (this equals
`⌊(xn-x0)/h⌋ + 1` precisely when `h` does not divide the interval exactly),
plus one final sample with `x ≥ xn`.  The spec's concrete case
`x0 = 0, xn = 1, h = 0.3` (5 points, last `1.2 > 1`) is an instance. -/
theorem claim_C8 (f : ℚ → ℚ → ℚ) (x0 y0 xn h : ℚ) (hh : 0 < h) (hx : x0 < xn) :
    ((euler_method f x0 y0 xn h).1 =
        (List.range ((⌈(xn - x0) / h⌉).toNat + 1)).map (fun k : ℕ => x0 + (k : ℚ) * h) ∧
      (euler_method f x0 y0 xn h).1.countP (fun a => a < xn) = (⌈(xn - x0) / h⌉).toNat ∧
      xn ≤ (euler_method f x0 y0 xn h).1.getLastD 0) ∧
    ((improved_euler_method f x0 y0 xn h).1 =
        (List.range ((⌈(xn - x0) / h⌉).toNat + 1)).map (fun k : ℕ => x0 + (k : ℚ) * h) ∧
      (improved_euler_method f x0 y0 xn h).1.countP (fun a => a < xn) =
        (⌈(xn - x0) / h⌉).toNat ∧
      xn ≤ (improved_euler_method f x0 y0 xn h).1.getLastD 0) := by
  constructor
  · exact xs_shape_props x0 xn h hh hx _ (by
      rw [euler_method]
      exact eulerLoop_xs f xn h hh (stepperFuel x0 xn h) x0 y0 [x0] [y0]
        (by rw [stepperFuel]; omega))
  · exact xs_shape_props x0 xn h hh hx _ (by
      rw [improved_euler_method]
      exact improvedEulerLoop_xs f xn h hh (stepperFuel x0 xn h) x0 y0 [x0] [y0]
        (by rw [stepperFuel]; omega))

theorem claim_C8_witness :
    (0 : ℚ) < 3 / 10 ∧ (0 : ℚ) < 1 ∧
    (((euler_method ode1_f 0 1 1 (3 / 10)).1 =
        (List.range ((⌈((1 : ℚ) - 0) / (3 / 10)⌉).toNat + 1)).map
          (fun k : ℕ => 0 + (k : ℚ) * (3 / 10)) ∧
      (euler_method ode1_f 0 1 1 (3 / 10)).1.countP (fun a => a < 1) =
        (⌈((1 : ℚ) - 0) / (3 / 10)⌉).toNat ∧
      (1 : ℚ) ≤ (euler_method ode1_f 0 1 1 (3 / 10)).1.getLastD 0) ∧
    ((improved_euler_method ode1_f 0 1 1 (3 / 10)).1 =
        (List.range ((⌈((1 : ℚ) - 0) / (3 / 10)⌉).toNat + 1)).map
          (fun k : ℕ => 0 + (k : ℚ) * (3 / 10)) ∧
      (improved_euler_method ode1_f 0 1 1 (3 / 10)).1.countP (fun a => a < 1) =
        (⌈((1 : ℚ) - 0) / (3 / 10)⌉).toNat ∧
      (1 : ℚ) ≤ (improved_euler_method ode1_f 0 1 1 (3 / 10)).1.getLastD 0)) :=
  ⟨by norm_num, by norm_num, claim_C8 ode1_f 0 1 1 (3 / 10) (by norm_num) (by norm_num)⟩

end OdeLab
